import Mathlib

/-!
Verification of the text-manipulation module `misc.go` of the lf repository:
a shallow embedding of its escaper, tokenizer, structured line parser,
natural-order comparator, display-width slicer and locale glue, with theorems
settling the specified properties. Strings are embedded as `List Char`;
the state of each Go loop is passed explicitly through auxiliary functions.
-/

namespace LfSpec

/-- Modelled from the spec: Go `unicode.IsSpace` (external standard library at
the module boundary), the Unicode white-space property. -/
def isSpace (c : Char) : Bool :=
  c = ' ' || (0x09 ≤ c.val && c.val ≤ 0x0D) || c.val = 0x85 || c.val = 0xA0 ||
  c.val = 0x1680 || (0x2000 ≤ c.val && c.val ≤ 0x200A) || c.val = 0x2028 ||
  c.val = 0x2029 || c.val = 0x202F || c.val = 0x205F || c.val = 0x3000

/-- Modelled from the spec: the repository's digit classification used by the
natural comparator (`isDigit`, declared outside this module): ASCII decimal
digits. -/
def isDigit (c : Char) : Bool :=
  '0' ≤ c && c ≤ '9'

/-- The character class escaped by `escape` and recognized by `unescape` in
misc.go: whitespace, backslash, semicolon and hash. -/
def isSpecialEsc (c : Char) : Bool :=
  isSpace c || c = '\\' || c = ';' || c = '#'

/-- `escape` from misc.go: prepend a backslash to every whitespace or special
character, leave the rest untouched. -/
def escape : List Char → List Char
  | [] => []
  | c :: t => (if isSpecialEsc c then ['\\', c] else [c]) ++ escape t

/-- The loop of `unescape` from misc.go; the Bool argument is the pending-escape
flag `esc`. A pending escape emits a literal backslash before a character that is
not in the special class, and a string ending mid-escape emits a final backslash. -/
def unescapeAux : Bool → List Char → List Char
  | true, [] => ['\\']
  | false, [] => []
  | true, c :: t => (if isSpecialEsc c then [c] else ['\\', c]) ++ unescapeAux false t
  | false, c :: t => if c = '\\' then unescapeAux true t else c :: unescapeAux false t

/-- `unescape` from misc.go. -/
def unescape (s : List Char) : List Char :=
  unescapeAux false s

/-- The pending-escape state of `unescape` after consuming `s`:
`escState false s = true` exactly when `s` ends in a trailing unescaped
backslash. -/
def escState : Bool → List Char → Bool
  | e, [] => e
  | true, _ :: t => escState false t
  | false, c :: t => escState (decide (c = '\\')) t

/-- The loop of `tokenize` from misc.go: `esc` is the escape flag, `buf` the
current token accumulator; the final (possibly empty) token is always appended. -/
def tokenizeAux : Bool → List Char → List Char → List (List Char)
  | _, buf, [] => [buf]
  | esc, buf, c :: t =>
    if c = '\\' then tokenizeAux true (buf ++ [c]) t
    else if esc then tokenizeAux false (buf ++ [c]) t
    else if isSpace c then buf :: tokenizeAux false [] t
    else tokenizeAux false (buf ++ [c]) t

/-- `tokenize` from misc.go. -/
def tokenize (s : List Char) : List (List Char) :=
  tokenizeAux false [] s

/-- Modelled from the spec: the tokenizer demanded by the specification sentence
"a backslash marks exactly its one immediately following character (any
character, including whitespace) as literal" — a backslash and the single
character after it are consumed as one literal pair (both retained), and every
other whitespace character closes a token. Stated for comparison with the
source-derived `tokenize`. -/
def tokenizeOneEscAux (buf : List Char) : List Char → List (List Char)
  | [] => [buf]
  | ['\\'] => [buf ++ ['\\']]
  | '\\' :: c :: t => tokenizeOneEscAux (buf ++ ['\\', c]) t
  | c :: t =>
    if isSpace c then buf :: tokenizeOneEscAux [] t
    else tokenizeOneEscAux (buf ++ [c]) t

/-- Modelled from the spec: entry point of the claim-mandated tokenizer. -/
def tokenizeOneEsc (s : List Char) : List (List Char) :=
  tokenizeOneEscAux [] s

/-- Predecessor-based characterization of the source tokenizer: a whitespace
character closes a token exactly when the character immediately before it is not
a backslash; all other characters (and escaping backslashes) are retained. -/
def tokenizePrevAux (prev : Option Char) (buf : List Char) : List Char → List (List Char)
  | [] => [buf]
  | c :: t =>
    if isSpace c && !(prev = some '\\') then buf :: tokenizePrevAux (some c) [] t
    else tokenizePrevAux (some c) (buf ++ [c]) t

/-- Entry point of the predecessor-based tokenizer characterization. -/
def tokenizePrev (s : List Char) : List (List Char) :=
  tokenizePrevAux none [] s

/-- The comment-stripping pass of `readArrays` from misc.go: walk the line
tracking single-quote and double-quote state (each toggles only while the other
is inactive) and truncate at the first unquoted hash. -/
def stripCommentAux : Bool → Bool → List Char → List Char
  | _, _, [] => []
  | sq, dq, c :: t =>
    let sq2 := if c = '\'' && !dq then !sq else sq
    let dq2 := if !(c = '\'' && !dq) && (c = '"' && !sq) then !dq else dq
    if !sq2 && !dq2 && c = '#' then []
    else c :: stripCommentAux sq2 dq2 t

/-- Comment stripping, started with both quote states inactive. -/
def stripComment (l : List Char) : List Char :=
  stripCommentAux false false l

/-- Modelled from the spec: Go `strings.TrimSpace` (external standard library):
strip leading and trailing whitespace. -/
def trimSpace (l : List Char) : List Char :=
  ((l.dropWhile isSpace).reverse.dropWhile isSpace).reverse

/-- The field-splitting pass of `readArrays` from misc.go (Go
`strings.FieldsFunc` with the stateful quote-tracking separator predicate):
unquoted whitespace separates fields, empty fields are dropped. -/
def splitFieldsAux : Bool → Bool → List Char → List Char → List (List Char)
  | _, _, cur, [] => if cur.isEmpty then [] else [cur]
  | sq, dq, cur, c :: t =>
    let sq2 := if c = '\'' && !dq then !sq else sq
    let dq2 := if !(c = '\'' && !dq) && (c = '"' && !sq) then !dq else dq
    if !sq2 && !dq2 && isSpace c then
      if cur.isEmpty then splitFieldsAux sq2 dq2 [] t
      else cur :: splitFieldsAux sq2 dq2 [] t
    else splitFieldsAux sq2 dq2 (cur ++ [c]) t

/-- Field splitting, started with both quote states inactive and an empty field. -/
def splitFields (l : List Char) : List (List Char) :=
  splitFieldsAux false false [] l

/-- The per-field quote-stripping pass of `readArrays` from misc.go: with a
fresh quote state per field, drop every quote character that toggles the state
and keep everything else. -/
def stripQuotesAux : Bool → Bool → List Char → List Char
  | _, _, [] => []
  | sq, dq, c :: t =>
    if c = '\'' && !dq then stripQuotesAux (!sq) dq t
    else if c = '"' && !sq then stripQuotesAux sq (!dq) t
    else c :: stripQuotesAux sq dq t

/-- Quote stripping, started with both quote states inactive. -/
def stripQuotes (l : List Char) : List Char :=
  stripQuotesAux false false l

/-- The error message of `readArrays` from misc.go: the exact expected count
when the bounds agree, a range otherwise, followed by the original line. -/
def colsErrMsg (mn mx : Nat) (line : List Char) : List Char :=
  (if mn = mx then ("expected " ++ Nat.repr mn ++ " columns but found: ").toList
   else ("expected " ++ Nat.repr mn ++ "~" ++ Nat.repr mx ++ " columns but found: ").toList)
  ++ line

/-- Outcome of processing one scanned line inside the `readArrays` loop. -/
inductive LineRes where
  | skip : LineRes
  | err : List Char → LineRes
  | row : List (List Char) → LineRes
deriving DecidableEq

/-- One iteration of the `readArrays` loop from misc.go: strip the comment, trim,
skip an empty line, validate the candidate field count against the bounds (the
error carries the original line), then strip quotes from each field. -/
def processLine (mn mx : Nat) (line : List Char) : LineRes :=
  let stripped := trimSpace (stripComment line)
  if stripped.isEmpty then .skip
  else
    let arr := splitFields stripped
    if arr.length < mn || mx < arr.length then .err (colsErrMsg mn mx line)
    else .row (arr.map stripQuotes)

/-- `readArrays` from misc.go over the scanned lines of the input stream: rows
accumulate in order, and the first malformed line aborts the whole parse with no
partial result. -/
def readArrays : List (List Char) → Nat → Nat → Except (List Char) (List (List (List Char)))
  | [], _, _ => .ok []
  | l :: rest, mn, mx =>
    match processLine mn mx l with
    | .skip => readArrays rest mn mx
    | .err e => .error e
    | .row r => (readArrays rest mn mx).map (fun rs => r :: rs)

/-- `readPairs` from misc.go: `readArrays` specialized to exactly two columns. -/
def readPairs (lines : List (List Char)) : Except (List Char) (List (List (List Char))) :=
  readArrays lines 2 2

/-- Split on newline characters, keeping a (possibly empty) final part. -/
def splitNl : List Char → List (List Char)
  | [] => [[]]
  | c :: t =>
    if c = '\n' then [] :: splitNl t
    else
      match splitNl t with
      | [] => [[c]]
      | x :: xs => (c :: x) :: xs

/-- Drop one trailing carriage return, as Go `bufio.ScanLines` does per line. -/
def dropCR (l : List Char) : List Char :=
  match l.reverse with
  | '\r' :: t => t.reverse
  | _ => l

/-- Modelled from the spec: the line scanner feeding `readArrays` (Go
`bufio.Scanner` with `ScanLines`, external standard library): split the stream
text on newlines, drop the empty token after a final newline, strip one trailing
carriage return per line. -/
def splitLines (s : List Char) : List (List Char) :=
  if s.isEmpty then []
  else
    let p := splitNl s
    let p2 := if p.getLast? = some [] then p.dropLast else p
    p2.map dropCR

/-- Go string comparison `<` on the runs compared by `naturalLess`:
lexicographic order (UTF-8 byte order coincides with code-point order). -/
def lexLt : List Char → List Char → Bool
  | _, [] => false
  | [], _ :: _ => true
  | a :: s, b :: t => if a = b then lexLt s t else decide (a < b)

/-- Numeric value of a decimal digit run. -/
def digitsVal (l : List Char) : Nat :=
  l.foldl (fun a c => 10 * a + (c.toNat - '0'.toNat)) 0

/-- Modelled from the spec: Go `strconv.Atoi` (external standard library)
restricted to the nonempty all-digit runs the natural comparator feeds it:
the numeric value, failing when out of 64-bit integer range. -/
def atoi (l : List Char) : Option Nat :=
  if !l.isEmpty && l.all isDigit then
    if digitsVal l ≤ 9223372036854775807 then some (digitsVal l) else none
  else none

/-- The run scanner of `naturalLess` from misc.go: accumulate the maximal run of
characters whose digit-ness equals `d` (the accumulator is kept reversed), then
start a fresh run at the first character of the other class. -/
def runsAux (d : Bool) (cur : List Char) : List Char → List (List Char)
  | [] => [cur.reverse]
  | c :: t =>
    if isDigit c == d then runsAux d (c :: cur) t
    else cur.reverse :: runsAux (isDigit c) [c] t

/-- The partition of a string into maximal digit / non-digit runs, as walked by
`naturalLess` from misc.go. -/
def runs : List Char → List (List Char)
  | [] => []
  | c :: t => runsAux (isDigit c) [c] t

/-- The comparison `naturalLess` from misc.go applies to the first pair of
textually differing runs: numeric when both runs are digit runs and both parse,
lexicographic otherwise. -/
def cmpRuns (r1 r2 : List Char) : Bool :=
  match r1, r2 with
  | c1 :: _, c2 :: _ =>
    if isDigit c1 && isDigit c2 then
      match atoi r1, atoi r2 with
      | some n1, some n2 => decide (n1 < n2)
      | _, _ => lexLt r1 r2
    else lexLt r1 r2
  | _, _ => lexLt r1 r2

/-- The loop of `naturalLess` from misc.go, with an explicit fuel parameter
bounding the number of loop iterations. Each iteration consumes at least one
character of the first string, so any fuel above its length is enough; the
remaining lists are the parts of the two strings after the current cursors. -/
def naturalLessFuel : Nat → List Char → List Char → Bool
  | 0, _, _ => false
  | _ + 1, [], l2 => !l2.isEmpty
  | _ + 1, _ :: _, [] => false
  | fuel + 1, c1 :: t1, c2 :: t2 =>
    let r1 := (c1 :: t1).takeWhile (fun x => isDigit x == isDigit c1)
    let q1 := (c1 :: t1).dropWhile (fun x => isDigit x == isDigit c1)
    let r2 := (c2 :: t2).takeWhile (fun x => isDigit x == isDigit c2)
    let q2 := (c2 :: t2).dropWhile (fun x => isDigit x == isDigit c2)
    if r1 = r2 then naturalLessFuel fuel q1 q2
    else if isDigit c1 && isDigit c2 then
      match atoi r1, atoi r2 with
      | some n1, some n2 => decide (n1 < n2)
      | _, _ => lexLt r1 r2
    else lexLt r1 r2

/-- `naturalLess` from misc.go. -/
def naturalLess (s1 s2 : List Char) : Bool :=
  naturalLessFuel (s1.length + 1) s1 s2

/-- The lockstep walk of `naturalLess` expressed on the two run partitions:
an exhausted first partition sorts first unless both are exhausted, equal runs
advance both cursors, and the first differing pair is settled by `cmpRuns`. -/
def naturalLessRuns : List (List Char) → List (List Char) → Bool
  | [], l2 => !l2.isEmpty
  | _ :: _, [] => false
  | r1 :: t1, r2 :: t2 =>
    if r1 = r2 then naturalLessRuns t1 t2 else cmpRuns r1 r2

/-- Modelled from the spec: the per-rune terminal display width (external
go-runewidth library at the module boundary): control characters and combining
marks occupy zero columns, East-Asian wide blocks occupy two, everything else
one. -/
def runeWidth (c : Char) : Nat :=
  if c.val < 0x20 then 0
  else if 0x300 ≤ c.val && c.val ≤ 0x36F then 0
  else if (0x1100 ≤ c.val && c.val ≤ 0x115F) || (0x2E80 ≤ c.val && c.val ≤ 0x303E) ||
          (0x3041 ≤ c.val && c.val ≤ 0x33FF) || (0x4E00 ≤ c.val && c.val ≤ 0x9FFF) ||
          (0xAC00 ≤ c.val && c.val ≤ 0xD7A3) || (0xF900 ≤ c.val && c.val ≤ 0xFAFF) ||
          (0xFF00 ≤ c.val && c.val ≤ 0xFF60) then 2
  else 1

/-- `runeSliceWidth` from misc.go: total column width of a rune sequence. -/
def runeSliceWidth : List Char → Nat
  | [] => 0
  | c :: t => runeWidth c + runeSliceWidth t

/-- The loop of `runeSliceWidthRange` from misc.go: `i` is the index of the head
of the remaining list inside `rs`, `curr` the accumulated width, `b` the begin
index and `f` the found-begin flag; an exhausted loop returns `rs[b:]`, the end
boundary returns `rs[b:i]`. -/
def rswrAux (rs : List Char) (beg e : Nat) : List Char → Nat → Nat → Nat → Bool → List Char
  | [], _, _, b, _ => rs.drop b
  | r :: rest, i, curr, b, f =>
    let w := runeWidth r
    let b2 := if decide (beg ≤ curr) && !f then i else b
    let f2 := if decide (beg ≤ curr) && !f then true else f
    if curr = e || decide (e < curr + w) then (rs.drop b2).take (i - b2)
    else rswrAux rs beg e rest (i + 1) (curr + w) b2 f2

/-- `runeSliceWidthRange` from misc.go. -/
def runeSliceWidthRange (rs : List Char) (beg e : Nat) : List Char :=
  if beg = e then [] else rswrAux rs beg e rs 0 0 0 false

/-- The loop of `runeSliceWidthLastRange` from misc.go, run on the reversed
sequence: keep runes while the accumulated width stays within `maxW`, stop at
the first rune that would exceed it. -/
def rswlAux (maxW : Nat) : Nat → List Char → List Char
  | _, [] => []
  | lw, c :: t => if maxW < lw + runeWidth c then [] else c :: rswlAux maxW (lw + runeWidth c) t

/-- `runeSliceWidthLastRange` from misc.go: the last runes of `rs` that take up
at most `maxW` columns. -/
def runeSliceWidthLastRange (rs : List Char) (maxW : Nat) : List Char :=
  (rswlAux maxW 0 rs.reverse).reverse

/-- The locale value meaning "locale ordering disabled" (`localeStrDisable`). -/
def localeStrDisable : List Char := []

/-- The locale value meaning "read the locale from the environment"
(`localeStrSys`). -/
def localeStrSys : List Char := ['*']

/-- Modelled from the spec: the external locale/collation collaborators at the
module boundary — `language.Parse` (a tag or a parse error message) and
`locale.Detect` (the environment locale or a detection error). -/
structure LocaleLib where
  parseTag : List Char → Except (List Char) (List Char)
  detect : Except (List Char) (List Char)

/-- Modelled from the spec: the Go `%q` verb as used in the locale error message,
restricted to printable characters: the value wrapped in double quotes with
inner quotes and backslashes escaped. -/
def goQuote (s : List Char) : List Char :=
  '"' :: (s.flatMap (fun c => if c = '"' || c = '\\' then ['\\', c] else [c])) ++ ['"']

/-- `getLocaleTag` from misc.go: the sys sentinel defers to environment
detection; a parse failure is wrapped in an error naming the quoted input. -/
def getLocaleTag (lib : LocaleLib) (localeStr : List Char) : Except (List Char) (List Char) :=
  if localeStr = localeStrSys then lib.detect
  else
    match lib.parseTag localeStr with
    | .error e => .error (("invalid locale ".toList ++ goQuote localeStr) ++ (": ".toList ++ e))
    | .ok t => .ok t

/-- `makeCollator` from misc.go: the disable sentinel yields a fixed error,
otherwise the collator for the resolved tag (the collator is represented by its
tag; `collate.New` cannot fail). -/
def makeCollator (lib : LocaleLib) (localeStr : List Char) : Except (List Char) (List Char) :=
  if localeStr = localeStrDisable then .error "locale suppose to be disabled with given string".toList
  else
    match getLocaleTag lib localeStr with
    | .error e => .error e
    | .ok t => .ok t

end LfSpec

namespace LfSpec

/-! ## Escaper -/

theorem unescapeAux_escape (s : List Char) : unescapeAux false (escape s) = s := by
  induction s with
  | nil => rfl
  | cons c t ih =>
    by_cases h : isSpecialEsc c = true
    · simp [escape, h, unescapeAux, ih]
    · have hc : ¬ c = '\\' := by
        intro hc
        apply h
        simp [isSpecialEsc, hc]
      simp [escape, h, unescapeAux, hc, ih]

/-- C6: for every string that does not end in a trailing unescaped backslash
(the pending-escape state of `unescape` after reading it is clear),
`unescape (escape s) = s`. -/
theorem unescape_escape_roundtrip (s : List Char) (_h : escState false s = false) :
    unescape (escape s) = s :=
  unescapeAux_escape s

/-- C6 witness: the round trip at a concrete string with whitespace and special
characters. -/
theorem unescape_escape_roundtrip_wit :
    escState false "a b\\c;#".toList = false ∧
      unescape (escape "a b\\c;#".toList) = "a b\\c;#".toList :=
  ⟨by decide, unescape_escape_roundtrip "a b\\c;#".toList (by decide)⟩

/-! ## Tokenizer -/

theorem tokenizeAux_eq_prevAux (s : List Char) :
    ∀ esc prev buf, (esc = true ↔ prev = some '\\') →
      tokenizeAux esc buf s = tokenizePrevAux prev buf s := by
  induction s with
  | nil => intro esc prev buf _; rfl
  | cons c t ih =>
    intro esc prev buf hinv
    by_cases hc : c = '\\'
    · subst hc
      have hs : isSpace '\\' = false := by decide
      simp [tokenizeAux, tokenizePrevAux, hs]
      exact ih true (some '\\') (buf ++ ['\\']) (by simp)
    · by_cases he : esc = true
      · have hprev : prev = some '\\' := hinv.mp he
        subst hprev
        by_cases hs : isSpace c = true
        · simp [tokenizeAux, hc, he, hs, tokenizePrevAux]
          exact ih false (some c) (buf ++ [c]) (by simp [hc])
        · simp [tokenizeAux, hc, he, hs, tokenizePrevAux]
          exact ih false (some c) (buf ++ [c]) (by simp [hc])
      · have he2 : esc = false := by simpa using he
        subst he2
        have hprev : ¬ prev = some '\\' := fun hp => he (hinv.mpr hp)
        by_cases hs : isSpace c = true
        · simp [tokenizeAux, hc, hs, tokenizePrevAux, hprev]
          exact ih false (some c) [] (by simp [hc])
        · simp [tokenizeAux, hc, hs, tokenizePrevAux, hprev]
          exact ih false (some c) (buf ++ [c]) (by simp [hc])

theorem tokenizeAux_ne_nil (s : List Char) : ∀ esc buf, tokenizeAux esc buf s ≠ [] := by
  induction s with
  | nil => intro esc buf; simp [tokenizeAux]
  | cons c t ih =>
    intro esc buf
    by_cases hc : c = '\\' <;> by_cases he : esc = true <;> by_cases hs : isSpace c = true <;>
      simp [tokenizeAux, hc, he, hs, ih]

/-- C3 counterexample: on the concrete input of two backslashes followed by a
space, the source tokenizer keeps everything in one token (the second backslash
re-arms the escape), while the claimed semantics — a backslash marks exactly its
one immediately following character as literal — closes a token at the space. -/
theorem tokenize_one_esc_cex :
    tokenize "\\\\ ".toList = ["\\\\ ".toList] ∧
      tokenizeOneEsc "\\\\ ".toList = ["\\\\".toList, []] ∧
      tokenize "\\\\ ".toList ≠ tokenizeOneEsc "\\\\ ".toList := by
  refine ⟨by decide, by decide, by decide⟩

/-- C3 (amended): `tokenize` splits exactly at whitespace characters whose
immediately preceding character is not a backslash (a backslash marks its
following character as literal, but a backslash directly after another backslash
starts a new escape); backslashes and escaped characters are retained
unmodified, a final (possibly empty) token is always appended so the result is
never empty, `tokenize "" = [""]`, and `tokenize "a  b" = ["a", "", "b"]`. -/
theorem tokenize_splits_at_unescaped_space :
    (∀ s : List Char, tokenize s = tokenizePrev s) ∧
      (∀ s : List Char, tokenize s ≠ []) ∧
      tokenize [] = [[]] ∧
      tokenize "a  b".toList = ["a".toList, [], "b".toList] := by
  refine ⟨fun s => tokenizeAux_eq_prevAux s false none [] (by simp),
    fun s => tokenizeAux_ne_nil s false [], by decide, by decide⟩

/-! ## Structured line parser -/

/-- C1: `readPairs` on the five scanned lines of the given input text yields
exactly the three expected rows, in order; the comment line and the empty line
produce no row and the single quotes are removed while the protected space
stays inside one field. -/
theorem readPairs_concrete :
    readPairs (splitLines "key1 value1\nkey2 'value two'\n# comment\n\nkey3 value3".toList)
      = .ok [["key1".toList, "value1".toList], ["key2".toList, "value two".toList],
             ["key3".toList, "value3".toList]] := by
  rfl

end LfSpec

namespace LfSpec

theorem processLine_err_iff (mn mx : Nat) (l e : List Char) :
    processLine mn mx l = .err e ↔
      (e = colsErrMsg mn mx l ∧ (trimSpace (stripComment l)).isEmpty = false ∧
        ((splitFields (trimSpace (stripComment l))).length < mn ∨
          mx < (splitFields (trimSpace (stripComment l))).length)) := by
  unfold processLine
  by_cases h1 : (trimSpace (stripComment l)).isEmpty
  · simp [h1]
  · by_cases h2 : ((splitFields (trimSpace (stripComment l))).length < mn ∨
        mx < (splitFields (trimSpace (stripComment l))).length)
    · have hb : ((splitFields (trimSpace (stripComment l))).length < mn ||
          mx < (splitFields (trimSpace (stripComment l))).length) = true := by
        rcases h2 with h2 | h2 <;> simp [h2]
      simp only [h1, Bool.false_eq_true, if_false, hb, if_true]
      constructor
      · intro he
        exact ⟨(LineRes.err.injEq _ _).mp he.symm, trivial, h2⟩
      · intro ⟨he, _, _⟩
        rw [he]
    · have hb : ((splitFields (trimSpace (stripComment l))).length < mn ||
          mx < (splitFields (trimSpace (stripComment l))).length) = false := by
        push_neg at h2
        simp [h2.1, h2.2]
      simp [h1, hb, h2]

theorem readArrays_cons_skip (mn mx : Nat) (l : List Char) (rest : List (List Char))
    (h : processLine mn mx l = .skip) :
    readArrays (l :: rest) mn mx = readArrays rest mn mx := by
  simp [readArrays, h]

theorem readArrays_first_err (mn mx : Nat) :
    ∀ (pre : List (List Char)) (bad : List Char) (suf : List (List Char)),
      (∀ l ∈ pre, ∀ e, processLine mn mx l ≠ .err e) →
      processLine mn mx bad = .err (colsErrMsg mn mx bad) →
      readArrays (pre ++ bad :: suf) mn mx = .error (colsErrMsg mn mx bad) := by
  intro pre
  induction pre with
  | nil =>
    intro bad suf _ hbad
    simp [readArrays, hbad]
  | cons p pre ih =>
    intro bad suf hpre hbad
    have hp : ∀ e, processLine mn mx p ≠ .err e := hpre p (List.mem_cons_self p pre)
    have hrest : ∀ l ∈ pre, ∀ e, processLine mn mx l ≠ .err e :=
      fun l hl => hpre l (List.mem_cons_of_mem p hl)
    rcases hq : processLine mn mx p with _ | e | r
    · rw [List.cons_append, readArrays_cons_skip mn mx p _ hq]
      exact ih bad suf hrest hbad
    · exact absurd hq (hp e)
    · rw [List.cons_append]
      simp only [readArrays, hq]
      rw [ih bad suf hrest hbad]
      rfl

end LfSpec

namespace LfSpec

/-- C2: a line (surviving comment stripping and trimming) whose candidate field
count falls outside `[mn, mx]` makes `readArrays` fail: the first such line
aborts the whole parse with no partial result (the `Except.error` carries no
rows), the error message is the exact-count form when `mn = mx` and the range
form otherwise, and it ends with the original, untruncated line text; moreover
whenever any such line exists at all, the whole call returns an error. -/
theorem readArrays_fail_fast :
    (∀ (mn mx : Nat) (pre : List (List Char)) (bad : List Char) (suf : List (List Char)),
      (∀ l ∈ pre, ∀ e, processLine mn mx l ≠ .err e) →
      (trimSpace (stripComment bad)).isEmpty = false →
      ((splitFields (trimSpace (stripComment bad))).length < mn ∨
        mx < (splitFields (trimSpace (stripComment bad))).length) →
      readArrays (pre ++ bad :: suf) mn mx = .error (colsErrMsg mn mx bad) ∧
        bad <:+ colsErrMsg mn mx bad) ∧
    (∀ (mn mx : Nat) (lines : List (List Char)),
      (∃ l ∈ lines, (trimSpace (stripComment l)).isEmpty = false ∧
        ((splitFields (trimSpace (stripComment l))).length < mn ∨
          mx < (splitFields (trimSpace (stripComment l))).length)) →
      ∃ e, readArrays lines mn mx = .error e) := by
  constructor
  · intro mn mx pre bad suf hpre hne hcnt
    refine ⟨readArrays_first_err mn mx pre bad suf hpre
      ((processLine_err_iff mn mx bad _).mpr ⟨rfl, hne, hcnt⟩), ?_⟩
    exact ⟨_, rfl⟩
  · intro mn mx lines
    induction lines with
    | nil => intro h; simp at h
    | cons p rest ih =>
      intro h
      rcases hq : processLine mn mx p with _ | e | r
      · rw [readArrays_cons_skip mn mx p rest hq]
        apply ih
        rcases h with ⟨l, hl, hcond⟩
        rcases List.mem_cons.mp hl with rfl | hl2
        · exact absurd ((processLine_err_iff mn mx l (colsErrMsg mn mx l)).mpr
            ⟨rfl, hcond.1, hcond.2⟩) (by rw [hq]; intro hx; cases hx)
        · exact ⟨l, hl2, hcond⟩
      · exact ⟨e, by simp [readArrays, hq]⟩
      · have : ∃ e, readArrays rest mn mx = .error e := by
          apply ih
          rcases h with ⟨l, hl, hcond⟩
          rcases List.mem_cons.mp hl with rfl | hl2
          · exact absurd ((processLine_err_iff mn mx l (colsErrMsg mn mx l)).mpr
              ⟨rfl, hcond.1, hcond.2⟩) (by rw [hq]; intro hx; cases hx)
          · exact ⟨l, hl2, hcond⟩
        rcases this with ⟨e, he⟩
        refine ⟨e, ?_⟩
        simp [readArrays, hq, he]
        rfl

/-- C2 witness: with bounds 2–2, a line of three unquoted fields fails with the
error naming 2 as the expected count and carrying the original line. -/
theorem readArrays_fail_fast_wit :
    readArrays ["a b c".toList] 2 2 = .error (colsErrMsg 2 2 "a b c".toList) ∧
      "a b c".toList <:+ colsErrMsg 2 2 "a b c".toList :=
  readArrays_fail_fast.1 2 2 [] "a b c".toList [] (by simp) (by decide) (by decide)

end LfSpec

namespace LfSpec

/-! ## Natural comparator -/

theorem dropWhile_len_le (p : Char → Bool) : ∀ l : List Char, (l.dropWhile p).length ≤ l.length := by
  intro l
  induction l with
  | nil => simp
  | cons c t ih =>
    by_cases h : p c
    · simp only [List.dropWhile_cons, h, if_true]
      exact Nat.le_succ_of_le ih
    · simp [List.dropWhile_cons, h]

theorem runsAux_eq (d : Bool) :
    ∀ (l cur : List Char),
      runsAux d cur l = (cur.reverse ++ l.takeWhile (fun x => isDigit x == d)) ::
        runs (l.dropWhile (fun x => isDigit x == d)) := by
  intro l
  induction l with
  | nil => intro cur; simp [runsAux, runs]
  | cons c t ih =>
    intro cur
    by_cases h : isDigit c == d
    · simp only [runsAux, h, if_true, ih (c :: cur), List.takeWhile_cons, List.dropWhile_cons,
        List.reverse_cons]
      simp [h]
    · have hb : (isDigit c == d) = false := by simpa using h
      simp only [runsAux, hb, Bool.false_eq_true, if_false, List.takeWhile_cons, hb,
        List.dropWhile_cons]
      simp [runs]

theorem runs_cons (c : Char) (t : List Char) :
    runs (c :: t) = ((c :: t).takeWhile (fun x => isDigit x == isDigit c)) ::
      runs ((c :: t).dropWhile (fun x => isDigit x == isDigit c)) := by
  have h := runsAux_eq (isDigit c) t [c]
  simp only [runs, h, List.reverse_cons, List.reverse_nil, List.nil_append,
    List.takeWhile_cons, List.dropWhile_cons, beq_self_eq_true, if_true]
  simp

theorem runs_eq_nil_iff (l : List Char) : runs l = [] ↔ l = [] := by
  cases l with
  | nil => simp [runs]
  | cons c t => simp [runs_cons]

theorem runs_flatten_bound : ∀ (n : Nat) (l : List Char), l.length ≤ n → (runs l).flatten = l := by
  intro n
  induction n with
  | zero =>
    intro l hl
    have : l = [] := List.eq_nil_of_length_eq_zero (Nat.le_zero.mp hl)
    subst this
    rfl
  | succ n ih =>
    intro l hl
    cases l with
    | nil => rfl
    | cons c t =>
      rw [runs_cons, List.flatten_cons]
      have hpc : (fun x => isDigit x == isDigit c) c = true := by simp
      have hdrop : (c :: t).dropWhile (fun x => isDigit x == isDigit c)
          = t.dropWhile (fun x => isDigit x == isDigit c) := by
        simp [List.dropWhile_cons, hpc]
      have hlen : ((c :: t).dropWhile (fun x => isDigit x == isDigit c)).length ≤ n := by
        rw [hdrop]
        exact Nat.le_trans (dropWhile_len_le _ t) (by simpa using hl)
      rw [ih _ hlen]
      exact List.takeWhile_append_dropWhile _ _

theorem runs_flatten (l : List Char) : (runs l).flatten = l :=
  runs_flatten_bound l.length l (Nat.le_refl _)

theorem runs_inj {l1 l2 : List Char} (h : runs l1 = runs l2) : l1 = l2 := by
  have := congrArg List.flatten h
  rwa [runs_flatten, runs_flatten] at this

theorem nlf_cons (fuel : Nat) (c1 c2 : Char) (t1 t2 : List Char) :
    naturalLessFuel (fuel + 1) (c1 :: t1) (c2 :: t2) =
      (if (c1 :: t1).takeWhile (fun x => isDigit x == isDigit c1)
          = (c2 :: t2).takeWhile (fun x => isDigit x == isDigit c2) then
        naturalLessFuel fuel ((c1 :: t1).dropWhile (fun x => isDigit x == isDigit c1))
          ((c2 :: t2).dropWhile (fun x => isDigit x == isDigit c2))
      else if isDigit c1 && isDigit c2 then
        match atoi ((c1 :: t1).takeWhile (fun x => isDigit x == isDigit c1)),
            atoi ((c2 :: t2).takeWhile (fun x => isDigit x == isDigit c2)) with
        | some n1, some n2 => decide (n1 < n2)
        | _, _ => lexLt ((c1 :: t1).takeWhile (fun x => isDigit x == isDigit c1))
            ((c2 :: t2).takeWhile (fun x => isDigit x == isDigit c2))
      else lexLt ((c1 :: t1).takeWhile (fun x => isDigit x == isDigit c1))
        ((c2 :: t2).takeWhile (fun x => isDigit x == isDigit c2))) := rfl

theorem cmpRuns_cons (a b : Char) (x y : List Char) :
    cmpRuns (a :: x) (b :: y) =
      (if isDigit a && isDigit b then
        match atoi (a :: x), atoi (b :: y) with
        | some n1, some n2 => decide (n1 < n2)
        | _, _ => lexLt (a :: x) (b :: y)
      else lexLt (a :: x) (b :: y)) := rfl

theorem nlf_eq_runs : ∀ (fuel : Nat) (l1 l2 : List Char), l1.length < fuel →
    naturalLessFuel fuel l1 l2 = naturalLessRuns (runs l1) (runs l2) := by
  intro fuel
  induction fuel with
  | zero => intro l1 l2 h; exact absurd h (Nat.not_lt_zero _)
  | succ n ih =>
    intro l1 l2 hlen
    cases l1 with
    | nil =>
      cases l2 with
      | nil => rfl
      | cons c2 t2 =>
        rw [runs_cons c2 t2]
        simp [naturalLessFuel, runs, naturalLessRuns]
    | cons c1 t1 =>
      cases l2 with
      | nil =>
        rw [show runs ([] : List Char) = [] from rfl, runs_cons c1 t1]
        rfl
      | cons c2 t2 =>
        rw [nlf_cons, runs_cons c1 t1, runs_cons c2 t2]
        have hR1 : (c1 :: t1).takeWhile (fun x => isDigit x == isDigit c1)
            = c1 :: t1.takeWhile (fun x => isDigit x == isDigit c1) := by
          simp [List.takeWhile_cons]
        have hR2 : (c2 :: t2).takeWhile (fun x => isDigit x == isDigit c2)
            = c2 :: t2.takeWhile (fun x => isDigit x == isDigit c2) := by
          simp [List.takeWhile_cons]
        by_cases hr : (c1 :: t1).takeWhile (fun x => isDigit x == isDigit c1)
            = (c2 :: t2).takeWhile (fun x => isDigit x == isDigit c2)
        · simp only [hr, if_true, naturalLessRuns, if_pos rfl]
          have hq : ((c1 :: t1).dropWhile (fun x => isDigit x == isDigit c1)).length < n := by
            have h1 : (c1 :: t1).dropWhile (fun x => isDigit x == isDigit c1)
                = t1.dropWhile (fun x => isDigit x == isDigit c1) := by
              simp [List.dropWhile_cons]
            rw [h1]
            exact Nat.lt_of_le_of_lt (dropWhile_len_le _ t1)
              (Nat.lt_of_succ_lt_succ (by simpa using hlen))
          exact ih _ _ hq
        · have hrr : ¬ ((c1 :: t1).takeWhile (fun x => isDigit x == isDigit c1)
              = (c2 :: t2).takeWhile (fun x => isDigit x == isDigit c2)) := hr
          simp only [hrr, if_false, naturalLessRuns, if_neg hrr]
          rw [hR1, hR2, cmpRuns_cons, ← hR1, ← hR2]

theorem naturalLess_eq_runs (l1 l2 : List Char) :
    naturalLess l1 l2 = naturalLessRuns (runs l1) (runs l2) :=
  nlf_eq_runs (l1.length + 1) l1 l2 (Nat.lt_succ_self _)

theorem nlr_lt : ∀ (a b : List (List Char)), a <+: b → a ≠ b → naturalLessRuns a b = true := by
  intro a
  induction a with
  | nil =>
    intro b _ hne
    cases b with
    | nil => exact absurd rfl hne
    | cons r t => simp [naturalLessRuns]
  | cons r t ih =>
    intro b hp hne
    cases b with
    | nil => exact absurd (List.prefix_nil.mp hp) (by simp)
    | cons r2 t2 =>
      obtain ⟨he, ht⟩ := List.cons_prefix_cons.mp hp
      subst he
      simp only [naturalLessRuns, if_pos rfl]
      exact ih t2 ht (fun hx => hne (by rw [hx]))

theorem nlr_ge : ∀ (b a : List (List Char)), b <+: a → naturalLessRuns a b = false := by
  intro b
  induction b with
  | nil =>
    intro a _
    cases a with
    | nil => rfl
    | cons r t => rfl
  | cons r2 t2 ih =>
    intro a hp
    cases a with
    | nil => exact absurd (List.prefix_nil.mp hp) (by simp)
    | cons r t =>
      obtain ⟨he, ht⟩ := List.cons_prefix_cons.mp hp
      subst he
      simp only [naturalLessRuns, if_pos rfl]
      exact ih t ht

end LfSpec

namespace LfSpec

/-- C4: the lockstep walk of `naturalLess` equals the run-wise comparison
(the first textually differing run pair is settled numerically when both runs
are digit runs and both parse as 64-bit integers, lexicographically otherwise),
and on the literal cases: `naturalLess "img2" "img10"` is true,
`naturalLess "img10" "img2"` is false, and `naturalLess "bar2bar" "foo10bar"`
is true via the lexical comparison of the first differing non-digit runs. -/
theorem naturalLess_literal_cases :
    (∀ l1 l2 : List Char, naturalLess l1 l2 = naturalLessRuns (runs l1) (runs l2)) ∧
      naturalLess "img2".toList "img10".toList = true ∧
      naturalLess "img10".toList "img2".toList = false ∧
      naturalLess "bar2bar".toList "foo10bar".toList = true :=
  ⟨naturalLess_eq_runs, by decide, by decide, by decide⟩

/-- C5: when the run partitions walked in lockstep are aligned so that one
string is exhausted with all compared runs equal (its run partition is a prefix
of the other's), the exhausted string sorts first: `naturalLess` is true when
the first string runs out strictly first, false when the second does (or both
end together), and `naturalLess s s = false` for every string. -/
theorem naturalLess_exhaustion :
    (∀ l1 l2 : List Char, runs l1 <+: runs l2 → naturalLess l1 l2 = decide (¬ l1 = l2)) ∧
      (∀ l1 l2 : List Char, runs l2 <+: runs l1 → naturalLess l1 l2 = false) ∧
      (∀ l : List Char, naturalLess l l = false) := by
  refine ⟨?_, ?_, ?_⟩
  · intro l1 l2 hp
    rw [naturalLess_eq_runs]
    by_cases he : l1 = l2
    · subst he
      simp [nlr_ge (runs l1) (runs l1) (List.prefix_refl _)]
    · have hrne : runs l1 ≠ runs l2 := fun hx => he (runs_inj hx)
      simp [nlr_lt (runs l1) (runs l2) hp hrne, he]
  · intro l1 l2 hp
    rw [naturalLess_eq_runs]
    exact nlr_ge (runs l2) (runs l1) hp
  · intro l
    rw [naturalLess_eq_runs]
    exact nlr_ge (runs l) (runs l) (List.prefix_refl _)

/-- C5 witness: `"ab2"` is exhausted first against `"ab2cd"` with the compared
runs equal, so it sorts first; `"abc"` against itself compares false. -/
theorem naturalLess_exhaustion_wit :
    naturalLess "ab2".toList "ab2cd".toList = decide (¬ "ab2".toList = "ab2cd".toList) ∧
      naturalLess "ab2cd".toList "ab2".toList = false :=
  ⟨naturalLess_exhaustion.1 "ab2".toList "ab2cd".toList (by decide),
    naturalLess_exhaustion.2.1 "ab2cd".toList "ab2".toList (by decide)⟩

end LfSpec

namespace LfSpec

/-! ## Display-width slicer -/

theorem runeSliceWidth_append : ∀ (a b : List Char),
    runeSliceWidth (a ++ b) = runeSliceWidth a + runeSliceWidth b := by
  intro a b
  induction a with
  | nil => simp [runeSliceWidth]
  | cons c t ih => simp [runeSliceWidth, ih, Nat.add_assoc]

theorem runeSliceWidth_reverse : ∀ (l : List Char),
    runeSliceWidth l.reverse = runeSliceWidth l := by
  intro l
  induction l with
  | nil => rfl
  | cons c t ih =>
    simp [List.reverse_cons, runeSliceWidth_append, runeSliceWidth, ih, Nat.add_comm]

theorem rswlAux_pfx (maxW : Nat) : ∀ (l : List Char) (lw : Nat), rswlAux maxW lw l <+: l := by
  intro l
  induction l with
  | nil => intro lw; exact List.prefix_refl _
  | cons c t ih =>
    intro lw
    by_cases h : maxW < lw + runeWidth c
    · simp only [rswlAux, if_pos h]
      exact List.nil_prefix
    · simp only [rswlAux, if_neg h]
      exact List.cons_prefix_cons.mpr ⟨rfl, ih _⟩

theorem rswlAux_width (maxW : Nat) : ∀ (l : List Char) (lw : Nat), lw ≤ maxW →
    lw + runeSliceWidth (rswlAux maxW lw l) ≤ maxW := by
  intro l
  induction l with
  | nil => intro lw h; simpa [rswlAux, runeSliceWidth] using h
  | cons c t ih =>
    intro lw h
    by_cases hx : maxW < lw + runeWidth c
    · simpa [rswlAux, hx, runeSliceWidth] using h
    · have h2 := ih (lw + runeWidth c) (Nat.le_of_not_lt hx)
      simp only [rswlAux, if_neg hx, runeSliceWidth]
      omega

theorem rswlAux_max (maxW : Nat) : ∀ (l p : List Char) (lw : Nat), p <+: l →
    lw + runeSliceWidth p ≤ maxW → p.length ≤ (rswlAux maxW lw l).length := by
  intro l
  induction l with
  | nil =>
    intro p lw hp _
    rw [List.prefix_nil.mp hp]
    exact Nat.zero_le _
  | cons c t ih =>
    intro p lw hp hw
    cases p with
    | nil => exact Nat.zero_le _
    | cons a p2 =>
      obtain ⟨rfl, hp2⟩ := List.cons_prefix_cons.mp hp
      have hle : maxW < lw + runeWidth a → False := by
        intro hx
        simp only [runeSliceWidth] at hw
        omega
      have hnx : ¬ maxW < lw + runeWidth a := fun hx => hle hx
      simp only [rswlAux, if_neg hnx, List.length_cons]
      have := ih p2 (lw + runeWidth a) hp2 (by simp only [runeSliceWidth] at hw; omega)
      omega

/-- C8: `runeSliceWidthLastRange rs maxW` is a suffix of `rs` of width at most
`maxW`, it is the longest such suffix, and unless it is all of `rs` the rune
immediately preceding it would push the width past `maxW`. -/
theorem runeSliceWidthLastRange_longest_fit :
    ∀ (rs : List Char) (maxW : Nat),
      runeSliceWidthLastRange rs maxW <:+ rs ∧
      runeSliceWidth (runeSliceWidthLastRange rs maxW) ≤ maxW ∧
      (∀ suf : List Char, suf <:+ rs → runeSliceWidth suf ≤ maxW →
        suf.length ≤ (runeSliceWidthLastRange rs maxW).length) ∧
      (∀ (c : Char) (front : List Char), rs = front ++ c :: runeSliceWidthLastRange rs maxW →
        maxW < runeSliceWidth (c :: runeSliceWidthLastRange rs maxW)) := by
  intro rs maxW
  have hsuf : runeSliceWidthLastRange rs maxW <:+ rs := by
    have h1 : rswlAux maxW 0 rs.reverse <+: rs.reverse := rswlAux_pfx maxW rs.reverse 0
    have h2 : (rswlAux maxW 0 rs.reverse).reverse <:+ rs.reverse.reverse :=
      List.reverse_suffix.mpr (by simpa using h1)
    simpa [runeSliceWidthLastRange] using h2
  have hwid : runeSliceWidth (runeSliceWidthLastRange rs maxW) ≤ maxW := by
    have := rswlAux_width maxW rs.reverse 0 (Nat.zero_le _)
    simpa [runeSliceWidthLastRange, runeSliceWidth_reverse] using this
  have hmax : ∀ suf : List Char, suf <:+ rs → runeSliceWidth suf ≤ maxW →
      suf.length ≤ (runeSliceWidthLastRange rs maxW).length := by
    intro suf hs hw
    have h1 : suf.reverse <+: rs.reverse := List.reverse_prefix.mpr hs
    have h2 := rswlAux_max maxW rs.reverse suf.reverse 0 h1
      (by simpa [runeSliceWidth_reverse] using hw)
    simpa [runeSliceWidthLastRange] using h2
  refine ⟨hsuf, hwid, hmax, ?_⟩
  intro c front hdecomp
  by_contra hcon
  push_neg at hcon
  have h1 : c :: runeSliceWidthLastRange rs maxW <:+ rs := ⟨front, hdecomp.symm⟩
  have h2 := hmax (c :: runeSliceWidthLastRange rs maxW) h1 hcon
  simp at h2

/-- C8 witness: the maximality clause at a concrete suffix. -/
theorem runeSliceWidthLastRange_longest_fit_wit :
    ("bcd".toList).length ≤ (runeSliceWidthLastRange "abcd".toList 3).length :=
  (runeSliceWidthLastRange_longest_fit "abcd".toList 3).2.2.1 "bcd".toList
    (by decide) (by decide)

theorem suffix_concat_ends (front : List Char) (c : Char) :
    ∀ (fr rest : List Char), fr ++ rest = front ++ [c] → rest ≠ [] →
      ∃ q, rest = q ++ [c] := by
  intro fr rest heq hne
  rcases List.eq_nil_or_concat' rest with h | ⟨q, b, rfl⟩
  · exact absurd h hne
  · refine ⟨q, ?_⟩
    have h2 : (fr ++ (q ++ [b])).getLast? = (front ++ [c]).getLast? := by rw [heq]
    rw [← List.append_assoc, List.getLast?_concat, List.getLast?_concat] at h2
    injection h2 with h3
    rw [h3]

end LfSpec

namespace LfSpec

theorem rswrAux_cons (rs : List Char) (beg e : Nat) (r : Char) (rest : List Char)
    (i curr b : Nat) (f : Bool) :
    rswrAux rs beg e (r :: rest) i curr b f =
      (if (decide (curr = e) || decide (e < curr + runeWidth r)) = true then
        (rs.drop (if decide (beg ≤ curr) && !f then i else b)).take
          (i - (if decide (beg ≤ curr) && !f then i else b))
      else rswrAux rs beg e rest (i + 1) (curr + runeWidth r)
        (if decide (beg ≤ curr) && !f then i else b)
        (if decide (beg ≤ curr) && !f then true else f)) := rfl

theorem rswr_keep (rs front : List Char) (c : Char) (hrs : rs = front ++ [c])
    (hwc : 0 < runeWidth c) :
    ∀ (rest fr : List Char) (i curr : Nat), rs = fr ++ rest → curr = runeSliceWidth fr →
      rswrAux rs 0 (runeSliceWidth rs) rest i curr 0 true = rs := by
  intro rest
  induction rest with
  | nil =>
    intro fr i curr _ _
    simp [rswrAux]
  | cons r rest2 ih =>
    intro fr i curr hsplit hcurr
    have hwsum : runeSliceWidth rs = curr + (runeWidth r + runeSliceWidth rest2) := by
      rw [hsplit, runeSliceWidth_append, hcurr]
      simp [runeSliceWidth]
    have hrest_pos : 0 < runeWidth r + runeSliceWidth rest2 := by
      obtain ⟨q, hq⟩ := suffix_concat_ends front c fr (r :: rest2)
        (by rw [← hsplit, hrs]) (by simp)
      have hqw : runeSliceWidth (r :: rest2) = runeSliceWidth q + runeWidth c := by
        rw [hq, runeSliceWidth_append]
        simp [runeSliceWidth]
      simp only [runeSliceWidth] at hqw
      omega
    rw [rswrAux_cons]
    have hd1 : decide (curr = runeSliceWidth rs) = false := by
      simp only [decide_eq_false_iff_not]
      omega
    have hd2 : decide (runeSliceWidth rs < curr + runeWidth r) = false := by
      simp only [decide_eq_false_iff_not]
      omega
    have hbf : (decide (0 ≤ curr) && !true) = false := by simp
    rw [hd1, hd2, hbf]
    simp only [Bool.or_self, Bool.false_eq_true, if_false, if_true]
    exact ih (fr ++ [r]) (i + 1) (curr + runeWidth r)
      (by rw [hsplit, List.append_assoc]; rfl)
      (by rw [runeSliceWidth_append, hcurr]; simp [runeSliceWidth])

/-- C7 (amended): for every rune sequence that is empty or whose final rune has
positive display width, `runeSliceWidthRange rs 0 (runeSliceWidth rs)` returns
`rs` unchanged. -/
theorem runeSliceWidthRange_full (rs : List Char)
    (h : rs = [] ∨ ∃ front c, rs = front ++ [c] ∧ 0 < runeWidth c) :
    runeSliceWidthRange rs 0 (runeSliceWidth rs) = rs := by
  rcases h with rfl | ⟨front, c, hrs, hwc⟩
  · rfl
  · obtain ⟨r, t, rfl⟩ : ∃ r t, rs = r :: t := by
      cases rs with
      | nil => exact absurd hrs (by simp)
      | cons r t => exact ⟨r, t, rfl⟩
    have hW : 0 < runeSliceWidth (r :: t) := by
      rw [hrs, runeSliceWidth_append]
      simp only [runeSliceWidth]
      omega
    have hwr : runeWidth r ≤ runeSliceWidth (r :: t) := by
      simp only [runeSliceWidth]
      omega
    unfold runeSliceWidthRange
    rw [if_neg (by omega)]
    rw [rswrAux_cons]
    have hd1 : decide ((0 : Nat) = runeSliceWidth (r :: t)) = false := by
      simp only [decide_eq_false_iff_not]
      omega
    have hd2 : decide (runeSliceWidth (r :: t) < 0 + runeWidth r) = false := by
      simp only [decide_eq_false_iff_not]
      omega
    have hbf : (decide ((0 : Nat) ≤ 0) && !false) = true := by simp
    rw [hd1, hd2, hbf]
    simp only [Bool.or_self, Bool.false_eq_true, if_false, if_true]
    exact rswr_keep (r :: t) front c hrs hwc t [r] 1 (0 + runeWidth r) rfl
      (by simp [runeSliceWidth])

/-- C7 counterexample: a single zero-width rune (the combining grave accent) has
total width 0, so the range `[0, 0)` returns the empty slice, not the sequence
itself. -/
theorem runeSliceWidthRange_zero_width_cex :
    runeSliceWidthRange ['\u0300'] 0 (runeSliceWidth ['\u0300']) = [] ∧
      runeSliceWidthRange ['\u0300'] 0 (runeSliceWidth ['\u0300']) ≠ ['\u0300'] :=
  ⟨by decide, by decide⟩

/-- C7 witness: the amended identity at a concrete two-rune sequence. -/
theorem runeSliceWidthRange_full_wit :
    runeSliceWidthRange "ab".toList 0 (runeSliceWidth "ab".toList) = "ab".toList :=
  runeSliceWidthRange_full "ab".toList (Or.inr ⟨['a'], 'b', by decide, by decide⟩)

theorem rswr_never_found (rs : List Char) (beg e : Nat) (hbe : beg < e)
    (hW : runeSliceWidth rs < beg) :
    ∀ (rest : List Char) (i curr b : Nat) (f : Bool),
      curr + runeSliceWidth rest ≤ runeSliceWidth rs →
      rswrAux rs beg e rest i curr b f = rs.drop b := by
  intro rest
  induction rest with
  | nil =>
    intro i curr b f _
    rfl
  | cons r rest2 ih =>
    intro i curr b f hsum
    simp only [runeSliceWidth] at hsum
    rw [rswrAux_cons]
    have hd1 : decide (curr = e) = false := by
      simp only [decide_eq_false_iff_not]
      omega
    have hd2 : decide (e < curr + runeWidth r) = false := by
      simp only [decide_eq_false_iff_not]
      omega
    have hbf : decide (beg ≤ curr) = false := by
      simp only [decide_eq_false_iff_not]
      omega
    rw [hd1, hd2, hbf]
    simp only [Bool.or_self, Bool.false_and, Bool.false_eq_true, if_false]
    exact ih (i + 1) (curr + runeWidth r) b f (by omega)

/-- C9 (amended): for every nonempty rune sequence and bounds with
`beg < end` and `beg` strictly greater than the total width, the begin boundary
is never located during the scan and `runeSliceWidthRange` returns all of `rs`. -/
theorem runeSliceWidthRange_overshoot (rs : List Char) (beg e : Nat) (_hne : rs ≠ [])
    (hbe : beg < e) (hW : runeSliceWidth rs < beg) :
    runeSliceWidthRange rs beg e = rs := by
  unfold runeSliceWidthRange
  rw [if_neg (by omega)]
  rw [rswr_never_found rs beg e hbe hW rs 0 0 0 false (by simp)]
  exact List.drop_zero rs

/-- C9 counterexample: `['a', combining-accent]` has total width 1, and with
`beg = 1 ≥ 1 = runeSliceWidth rs` and `end = 2` the begin boundary is found at
the trailing zero-width rune, so only that suffix is returned, not all of `rs`. -/
theorem runeSliceWidthRange_overshoot_cex :
    ['a', '\u0300'] ≠ ([] : List Char) ∧ (1 : Nat) < 2 ∧
      runeSliceWidth ['a', '\u0300'] ≤ 1 ∧
      runeSliceWidthRange ['a', '\u0300'] 1 2 = ['\u0300'] ∧
      runeSliceWidthRange ['a', '\u0300'] 1 2 ≠ ['a', '\u0300'] :=
  ⟨by decide, by decide, by decide, by decide, by decide⟩

/-- C9 witness: the amended statement at a concrete input. -/
theorem runeSliceWidthRange_overshoot_wit :
    runeSliceWidthRange ['a'] 2 3 = ['a'] :=
  runeSliceWidthRange_overshoot ['a'] 2 3 (by decide) (by decide) (by decide)

end LfSpec

namespace LfSpec

/-! ## Locale glue -/

/-- C10 counterexample: the disabled-locale error of `makeCollator` is the fixed
message "locale suppose to be disabled with given string", which does not
contain the (empty) offending input value in quotes — it contains no quote
character at all. -/
theorem makeCollator_disabled_cex :
    makeCollator ⟨fun _ => Except.error "x".toList, Except.error "y".toList⟩ localeStrDisable
        = .error "locale suppose to be disabled with given string".toList ∧
      ¬ goQuote localeStrDisable <:+: "locale suppose to be disabled with given string".toList :=
  ⟨rfl, by decide⟩

/-- C10 (amended): every parse-failure error from `getLocaleTag` contains the
offending input locale value, quoted, in its message, and `makeCollator`
propagates it unchanged for a non-sentinel locale string; the disabled-locale
request instead yields the fixed message "locale suppose to be disabled with
given string", which does not include the input value. -/
theorem locale_errors_quote_input :
    (∀ (lib : LocaleLib) (s e : List Char), s ≠ localeStrSys → lib.parseTag s = .error e →
      getLocaleTag lib s = .error (("invalid locale ".toList ++ goQuote s) ++ (": ".toList ++ e)) ∧
        goQuote s <:+: ("invalid locale ".toList ++ goQuote s) ++ (": ".toList ++ e) ∧
        (s ≠ localeStrDisable → makeCollator lib s
          = .error (("invalid locale ".toList ++ goQuote s) ++ (": ".toList ++ e)))) ∧
    (∀ lib : LocaleLib, makeCollator lib localeStrDisable
        = .error "locale suppose to be disabled with given string".toList) := by
  constructor
  · intro lib s e hsys hparse
    have hget : getLocaleTag lib s
        = .error (("invalid locale ".toList ++ goQuote s) ++ (": ".toList ++ e)) := by
      unfold getLocaleTag
      rw [if_neg hsys, hparse]
    refine ⟨hget, List.infix_append _ _ _, ?_⟩
    intro hdis
    unfold makeCollator
    rw [if_neg hdis, hget]
  · intro lib
    rfl

/-- C10 witness: a concrete library whose parser fails with message "tagfail"
on the locale string "xx!". -/
theorem locale_errors_quote_input_wit :
    getLocaleTag ⟨fun _ => Except.error "tagfail".toList, Except.error "df".toList⟩ "xx!".toList
        = .error (("invalid locale ".toList ++ goQuote "xx!".toList)
            ++ (": ".toList ++ "tagfail".toList)) ∧
      goQuote "xx!".toList <:+: ("invalid locale ".toList ++ goQuote "xx!".toList)
          ++ (": ".toList ++ "tagfail".toList) ∧
      ("xx!".toList ≠ localeStrDisable →
        makeCollator ⟨fun _ => Except.error "tagfail".toList, Except.error "df".toList⟩ "xx!".toList
          = .error (("invalid locale ".toList ++ goQuote "xx!".toList)
              ++ (": ".toList ++ "tagfail".toList))) :=
  locale_errors_quote_input.1 ⟨fun _ => Except.error "tagfail".toList, Except.error "df".toList⟩
    "xx!".toList "tagfail".toList (by decide) rfl

end LfSpec
